import Mathlib

/-!
Verification of the stealthy-stats data synchronization service.

We give a shallow embedding of the parts of the service relevant to its
specification: the batch accumulator (`app/utils/batch_accumulator.py`),
the conditional fetch client retry wrapper (`app/services/tba.py`), the
record normalizer filters (`app/services/tba.py`), the event active-window
predicate and sync scope resolution (`app/services/db.py`), the ETag cache,
and the conflict-key upsert engine (`app/services/db.py`).

Tabular data (polars dataframes, database tables) is modelled as lists of
rows, a row being an association list from column name to nullable value.
-/

namespace StealthyStats

/-- A nullable cell value, as held by one dataframe or table cell. -/
abbrev Value := Option String

/-- One dataframe or table row: an association list from column name to value.
A column absent from the list reads as null. -/
abbrev Row := List (String × Value)

/-- Read a column of a row; absent columns read as null. -/
def getCol : Row → String → Value
  | [], _ => none
  | (c, v) :: t, x => if c = x then v else getCol t x

/-- Overwrite a column of a row in place, appending it when absent
(an SQL UPDATE on a column the representation does not yet carry). -/
def setCol : Row → String → Value → Row
  | [], x, v => [(x, v)]
  | (c, w) :: t, x, v => if c = x then (c, v) :: t else (c, w) :: setCol t x v

/-- Whether the row representation carries the given column. -/
def containsCol : Row → String → Bool
  | [], _ => false
  | (c, _) :: t, x => c == x || containsCol t x

/-- A tabular fragment, mirroring a polars dataframe: a declared column list
and the rows. -/
structure Fragment where
  columns : List String
  rows : List Row

/- ---------------------------------------------------------------------
Batch accumulator, from `app/utils/batch_accumulator.py`.
The `_data` dict is modelled as an association list from bucket key to the
list of buffered dataframes; `_etags` as the list of pending updates.
--------------------------------------------------------------------- -/

/-- State of `BatchAccumulator`. -/
structure BatchAccumulator where
  batchSize : Nat
  data : List (String × List (List Row))
  etags : List (String × String)

/-- `BatchAccumulator.__init__`. -/
def BatchAccumulator.empty (batchSize : Nat) : BatchAccumulator :=
  { batchSize := batchSize, data := [], etags := [] }

/-- `BatchAccumulator.add_data`: no-op on an empty dataframe; otherwise the
bucket key is created with an empty list when absent, then the dataframe is
appended to the bucket. -/
def BatchAccumulator.addData (acc : BatchAccumulator) (key : String)
    (df : List Row) : BatchAccumulator :=
  if df.isEmpty then acc
  else if acc.data.any (fun kv => kv.1 == key) then
    { acc with data :=
        acc.data.map (fun kv => if kv.1 == key then (kv.1, kv.2 ++ [df]) else kv) }
  else
    { acc with data := acc.data ++ [(key, [df])] }

/-- `BatchAccumulator.clear_data`: when the key is present its list is reset
to empty; the key itself stays in the dict. -/
def BatchAccumulator.clearData (acc : BatchAccumulator) (key : String) :
    BatchAccumulator :=
  { acc with data :=
      acc.data.map (fun kv => if kv.1 == key then (kv.1, []) else kv) }

/-- `BatchAccumulator.add_etag`. -/
def BatchAccumulator.addEtag (acc : BatchAccumulator) (endpoint etag : String) :
    BatchAccumulator :=
  { acc with etags := acc.etags ++ [(endpoint, etag)] }

/-- `BatchAccumulator.should_flush`: `iteration % batch_size == 0 or iteration == total`. -/
def BatchAccumulator.shouldFlush (acc : BatchAccumulator)
    (iteration total : Nat) : Bool :=
  iteration % acc.batchSize == 0 || iteration == total

/-- `BatchAccumulator.has_data`: `bool(self._data) or bool(self._etags)`.
A python dict is truthy when it has any key, regardless of the values. -/
def BatchAccumulator.hasData (acc : BatchAccumulator) : Bool :=
  !acc.data.isEmpty || !acc.etags.isEmpty

/- ---------------------------------------------------------------------
Match alliance team pre-upsert filter, from
`app/pipeline/tasks/sync_matches.py`:
`match_alliance_teams_df.filter(pl.col("team_key").is_in(valid_team_keys))`.
--------------------------------------------------------------------- -/

/-- One row of the match_alliance_teams fragment. -/
structure MatchAllianceTeamRow where
  match_key : String
  alliance_color : String
  team_key : String
  event_key : String
  is_surrogate : Bool
  is_dq : Bool
deriving DecidableEq, Repr

/-- The pre-upsert referential filter of `sync_matches`: keep only the rows
whose team key belongs to the valid-team set. -/
def filterValidTeams (rows : List MatchAllianceTeamRow)
    (validTeamKeys : List String) : List MatchAllianceTeamRow :=
  rows.filter (fun r => validTeamKeys.contains r.team_key)

/- ---------------------------------------------------------------------
Record normalizer reserved-range filters, from `app/services/tba.py`.

`get_teams` drops rows with `team_number` between 9970 and 9999 inclusive:
`.filter(~pl.col("team_number").is_between(9970, 9999))`. In polars, a null
`team_number` makes the whole predicate null and the row is dropped.

`get_event_teams` extracts the number from the `frc<digits>` key with
`.str.extract(r"^frc(\d+)$", 1).cast(pl.Int32)` and applies the same
`is_between` mask; a key that does not match the pattern extracts to null
and the row is dropped.
--------------------------------------------------------------------- -/

/-- One provider team record, with the columns selected by `get_teams`. -/
structure TeamRecord where
  key : String
  team_number : Option Int
  nickname : Value
  name : Value
  school_name : Value
  city : Value
  state_prov : Value
  country : Value
  postal_code : Value
  website : Value
  rookie_year : Option Int
deriving DecidableEq, Repr

/-- The row mask of `~pl.col("team_number").is_between(9970, 9999)`:
null numbers give a null mask, and `filter` keeps only `true`. -/
def keepTeamRow (t : TeamRecord) : Bool :=
  match t.team_number with
  | none => false
  | some n => !(decide (9970 ≤ n ∧ n ≤ 9999))

/-- The teams fragment as emitted by `TBAService.get_teams` for one page. -/
def getTeamsFragment (input : List TeamRecord) : List TeamRecord :=
  input.filter keepTeamRow

/-- Value of a digit string, as read by the polars cast of the captured group. -/
def digitsToNat (cs : List Char) : Nat :=
  cs.foldl (fun acc c => acc * 10 + (c.toNat - 48)) 0

/-- The regex extraction `^frc(\d+)$` followed by the integer cast: some
number exactly when the key is `frc` followed by one or more digits. -/
def extractFrcNumber (s : String) : Option Nat :=
  match s.data with
  | 'f' :: 'r' :: 'c' :: rest =>
    if !rest.isEmpty && rest.all Char.isDigit then some (digitsToNat rest) else none
  | _ => none

/-- The row mask of the event-teams reserved-range filter. -/
def keepEventTeamKey (teamKey : String) : Bool :=
  match extractFrcNumber teamKey with
  | none => false
  | some n => !(decide (9970 ≤ n ∧ n ≤ 9999))

/-- The event_teams fragment as emitted by `TBAService.get_event_teams`:
filtered keys paired with the event key, columns `event_key, team_key`. -/
def getEventTeamsFragment (eventKey : String) (data : List String) :
    List (String × String) :=
  (data.filter keepEventTeamKey).map (fun tk => (eventKey, tk))

/- ---------------------------------------------------------------------
Conditional fetch client, from `app/services/tba.py`.

`TBAService._get` is wrapped by tenacity with `stop_after_attempt(3)`,
`wait_exponential(multiplier=1, min=2, max=10)`,
`retry_if_exception_type(httpx.HTTPError)` and `reraise=True`.

In httpx, `HTTPStatusError` (raised by `raise_for_status` for every
non-2xx status) and `TransportError` (network failures) are both
subclasses of `HTTPError`, so both are retried by this predicate.
The environment of a call is modelled as the sequence of network outcomes
the successive attempts would observe.
-/

/-- Outcome of one underlying `httpx.get` call: a response with a status,
body and ETag header; a network failure; or a non-HTTP processing failure
(for example a JSON decode error). -/
inductive NetResult where
  | response (status : Nat) (body : String) (etag : Option String)
  | netFail
  | otherFail
deriving DecidableEq, Repr

/-- Exceptions escaping one attempt of `TBAService._get`. -/
inductive FetchError where
  | statusError (code : Nat)
  | transportError
  | otherError
deriving DecidableEq, Repr

/-- Whether the exception is an `httpx.HTTPError`: status errors and
transport errors are; anything else is not. -/
def FetchError.isHTTPError : FetchError → Bool
  | .statusError _ => true
  | .transportError => true
  | .otherError => false

/-- One attempt of `TBAService._get`: 304 maps to the not-modified sentinel
`none`; other non-2xx statuses raise `HTTPStatusError` via
`raise_for_status`; success returns the body with the response ETag. -/
def tbaGetOnce : NetResult → Except FetchError (Option (String × Option String))
  | .netFail => .error .transportError
  | .otherFail => .error .otherError
  | .response status body etag =>
    if status == 304 then .ok none
    else if 200 ≤ status ∧ status ≤ 299 then .ok (some (body, etag))
    else .error (.statusError status)

/-- The tenacity retry loop around `_get`: `retriesLeft` further attempts may
follow the current one. An attempt raising an `httpx.HTTPError` is retried
while attempts remain; any other exception, and exhaustion (`reraise=True`),
re-raise to the caller. -/
def tbaGetRetry (env : Nat → NetResult) :
    Nat → Nat → Except FetchError (Option (String × Option String))
  | 0, i => tbaGetOnce (env i)
  | retriesLeft + 1, i =>
    match tbaGetOnce (env i) with
    | .ok v => .ok v
    | .error e =>
      if e.isHTTPError then tbaGetRetry env retriesLeft (i + 1) else .error e

/-- `TBAService._get` as seen by callers: `stop_after_attempt(3)` allows the
first attempt plus two retries. -/
def tbaGet (env : Nat → NetResult) :
    Except FetchError (Option (String × Option String)) :=
  tbaGetRetry env 2 0

/-- `wait_exponential(multiplier=1, min=2, max=10)`: the sleep before the
retry following failed attempt `n` is `multiplier * 2 ^ n` clamped
into the interval from min to max. -/
def waitExponential (n : Nat) : Nat :=
  max 2 (min 10 (2 ^ n))

/- ---------------------------------------------------------------------
Event active window and sync scope resolution, from `app/services/db.py`.

Dates are day ordinals (days since 1970-01-01), instants are seconds since
the epoch. A timezone is a rule mapping an instant to its UTC offset in
seconds; `zinfo` plays the role of the ZoneInfo database.
--------------------------------------------------------------------- -/

/-- A python `timedelta`, normalized to whole days plus leftover seconds
in `[0, 86400)`, as the `timedelta` constructor does. -/
structure Timedelta where
  days : Int
  seconds : Int
deriving DecidableEq, Repr

/-- `timedelta(days=..., hours=...)`. -/
def Timedelta.ofDaysHours (days hours : Int) : Timedelta :=
  let total := days * 86400 + hours * 3600
  ⟨total.fdiv 86400, total.fmod 86400⟩

/-- CPython `date.__add__` with a timedelta moves the ordinal by the
`days` attribute only; the seconds component is ignored. -/
def dateAddTd (d : Int) (td : Timedelta) : Int := d + td.days

/-- CPython `date.__sub__` with a timedelta is `self + timedelta(-other.days)`. -/
def dateSubTd (d : Int) (td : Timedelta) : Int := d - td.days

/-- A timezone as a rule from instant to UTC offset in seconds. -/
abbrev ZoneRule := Int → Int

/-- `ZoneInfo(event.timezone) if event.timezone else ZoneInfo("UTC")`. -/
def zoneOf (zinfo : String → ZoneRule) : Option String → ZoneRule
  | some name => zinfo name
  | none => fun _ => 0

/-- `datetime.now(tz).date()`: the local calendar date of the instant. -/
def localDateAt (rule : ZoneRule) (ts : Int) : Int :=
  (ts + rule ts).fdiv 86400

/-- Day ordinal of a calendar date (days since 1970-01-01), following the
standard civil-from-days correspondence used by CPython date ordinals. -/
def civilToDays (y m d : Int) : Int :=
  let yy := if m ≤ 2 then y - 1 else y
  let era := yy.fdiv 400
  let yoe := yy - era * 400
  let mp := (m + 9).emod 12
  let doy := (153 * mp + 2).fdiv 5 + d - 1
  let doe := yoe * 365 + yoe.fdiv 4 - yoe.fdiv 100 + doy
  era * 146097 + doe - 719468

/-- The columns of an event row used by scope resolution. -/
structure Event where
  key : String
  year : Int
  timezone : Option String
  start_date : Int
  end_date : Int

/-- `DBService._is_event_active`: buffer the start and end dates by
`timedelta(days=1, hours=2)` under python date arithmetic, convert now to
the event-local date (UTC when the timezone is unset), and test membership
in the buffered window. -/
def isEventActive (zinfo : String → ZoneRule) (ts : Int) (e : Event) : Bool :=
  let buffer := Timedelta.ofDaysHours 1 2
  let nowDate := localDateAt (zoneOf zinfo e.timezone) ts
  decide (dateSubTd e.start_date buffer ≤ nowDate ∧
    nowDate ≤ dateAddTd e.end_date buffer)

/-- The three sync tiers of `app/types/sync_type.py`. -/
inductive SyncType where
  | FULL
  | LIVE
  | YEAR
deriving DecidableEq, Repr

/-- `DBService.get_event_keys`: FULL keeps inactive events over all years;
LIVE keeps active current-year events; YEAR keeps inactive current-year
events. The query orders by start date; `nowYear` is `datetime.now().year`. -/
def getEventKeys (zinfo : String → ZoneRule) (ts : Int) (nowYear : Int)
    (events : List Event) : SyncType → List String
  | .FULL =>
    ((events.insertionSort
        (fun a b => a.start_date ≤ b.start_date)).filter
      (fun e => !isEventActive zinfo ts e)).map Event.key
  | .LIVE =>
    (((events.filter (fun e => e.year == nowYear)).insertionSort
        (fun a b => a.start_date ≤ b.start_date)).filter
      (fun e => isEventActive zinfo ts e)).map Event.key
  | .YEAR =>
    (((events.filter (fun e => e.year == nowYear)).insertionSort
        (fun a b => a.start_date ≤ b.start_date)).filter
      (fun e => !isEventActive zinfo ts e)).map Event.key

/- ---------------------------------------------------------------------
Validator cache, from `app/services/db.py` and its pipeline callers.

`DBService.get_etag` is the point lookup on the `etags` table, keyed by
endpoint. The store is modelled as an association list endpoint -> token.
--------------------------------------------------------------------- -/

/-- `DBService.get_etag`: primary-key point lookup. -/
def getEtag (store : List (String × String)) (endpoint : String) :
    Option String :=
  (store.find? (fun kv => kv.1 == endpoint)).map (·.2)

/-- The suffixes of a character list, longest first. -/
def suffixes : List Char → List (List Char)
  | [] => [[]]
  | c :: t => (c :: t) :: suffixes t

/-- SQL LIKE matching where `%` matches any (possibly empty) substring and
every other character matches itself. -/
def likeMatch : List Char → List Char → Bool
  | [], s => s.isEmpty
  | '%' :: p, s => (suffixes s).any (fun t => likeMatch p t)
  | pc :: p, s =>
    match s with
    | [] => false
    | c :: t => pc == c && likeMatch p t

/-- Replace every `{...}` interpolation placeholder of an endpoint template
with the SQL wildcard `%`; `inBrace` tracks whether the scan is inside a
placeholder. -/
def wildcardTemplate : List Char → Bool → List Char
  | [], _ => []
  | c :: rest, true =>
    if c = '}' then '%' :: wildcardTemplate rest false
    else wildcardTemplate rest true
  | c :: rest, false =>
    if c = '{' then wildcardTemplate rest true
    else c :: wildcardTemplate rest false

/-- The endpoint template turned into a LIKE pattern. -/
def templatePattern (template : String) : List Char :=
  wildcardTemplate template.data false

/-- Modelled from the spec: `DBService.get_etags`, the bulk lookup used by
the batch sync tasks, is absent from the sources (only its call sites
appear). Per the spec it substitutes the interpolation placeholders of one
endpoint resource template with a wildcard and returns the map from every
matching endpoint identifier to its stored token in a single query. -/
def getEtagsBulk (store : List (String × String)) (template : String) :
    List (String × String) :=
  store.filter (fun kv => likeMatch (templatePattern template) kv.1.data)

/- ---------------------------------------------------------------------
Upsert engine, from `DBService.upsert` in `app/services/db.py`.

`insert(table).values(records)` with `on_conflict_do_update` /
`on_conflict_do_nothing` processes the fragment rows in order against the
stored rows. A new row conflicts with a stored row when they agree on every
conflict-key column; `on_conflict_do_update` overwrites the columns of
`set_` (the fragment columns outside the conflict keys) of the conflicting
stored row with the incoming values, `on_conflict_do_nothing` leaves it
unchanged; a non-conflicting row is inserted.
--------------------------------------------------------------------- -/

/-- The conflict-key projection of a row. -/
def projKeys (ckeys : List String) (r : Row) : List Value :=
  ckeys.map (getCol r)

/-- `SET c = excluded.c` for every update column: overwrite the columns
`updCols` of `dst` with their values in `src`. -/
def mergeRow (updCols : List String) (dst src : Row) : Row :=
  updCols.foldl (fun acc c => setCol acc c (getCol src c)) dst

/-- Uniform single-row upsert step: on conflict, overwrite the update
columns of the conflicting stored rows; otherwise insert at the end. -/
def uStep (ckeys updCols : List String) (st : List Row) (r : Row) : List Row :=
  if st.any (fun s => decide (projKeys ckeys s = projKeys ckeys r)) then
    st.map (fun s =>
      if projKeys ckeys s = projKeys ckeys r then mergeRow updCols s r else s)
  else st ++ [r]

/-- Single-row step as the code branches: with no update columns the
statement is `on_conflict_do_nothing`, otherwise `on_conflict_do_update`. -/
def applyConflictRow (ckeys updCols : List String) (st : List Row) (r : Row) :
    List Row :=
  if updCols.isEmpty then
    if st.any (fun s => decide (projKeys ckeys s = projKeys ckeys r)) then st
    else st ++ [r]
  else uStep ckeys updCols st r

/-- `{c: stmt.excluded[c] for c in df.columns if c not in conflict_keys}`. -/
def updateColsOf (columns ckeys : List String) : List String :=
  columns.filter (fun c => !ckeys.contains c)

/-- `conflict_keys`: the supplied keys, or the declared primary-key
columns of the table when none are supplied. -/
def conflictKeysOf (conflictKey : Option (List String))
    (primaryKey : List String) : List String :=
  conflictKey.getD primaryKey

/-- `DBService.upsert` acting on the stored rows of the destination table:
an empty fragment returns early; otherwise every row is inserted with
conflict resolution as above. -/
def upsert (primaryKey : List String) (conflictKey : Option (List String))
    (frag : Fragment) (st : List Row) : List Row :=
  if frag.rows.isEmpty then st
  else
    frag.rows.foldl
      (applyConflictRow (conflictKeysOf conflictKey primaryKey)
        (updateColsOf frag.columns (conflictKeysOf conflictKey primaryKey)))
      st

/- ---------------------------------------------------------------------
Claim theorems: batch accumulator and referential filter.
--------------------------------------------------------------------- -/

/-- C6: with batch size 5, for every total at least 1, `should_flush`
returns true for an index in 1..total exactly when the index is a multiple
of 5 or is the final index, and false for every other index, so a final
flush always occurs regardless of divisibility. -/
theorem shouldFlush_spec (total i : Nat) (htotal : 1 ≤ total) (hi1 : 1 ≤ i)
    (hi2 : i ≤ total) :
    (BatchAccumulator.empty 5).shouldFlush i total = true ↔
      (i % 5 = 0 ∨ i = total) := by
  simp [BatchAccumulator.shouldFlush, BatchAccumulator.empty]

theorem shouldFlush_spec_witness :
    ((BatchAccumulator.empty 5).shouldFlush 5 7 = true ↔ (5 % 5 = 0 ∨ 5 = 7)) ∧
    ((BatchAccumulator.empty 5).shouldFlush 7 7 = true ↔ (7 % 5 = 0 ∨ 7 = 7)) ∧
    ((BatchAccumulator.empty 5).shouldFlush 6 7 = true ↔ (6 % 5 = 0 ∨ 6 = 7)) :=
  ⟨shouldFlush_spec 7 5 (by decide) (by decide) (by decide),
   shouldFlush_spec 7 7 (by decide) (by decide) (by decide),
   shouldFlush_spec 7 6 (by decide) (by decide) (by decide)⟩

/-- C7: the pre-upsert referential filter of the match sync keeps exactly
the match-alliance-team rows whose team key is in the valid-team set and
removes all others; it is a total function, so no error is raised however
many rows are removed. -/
theorem filterValidTeams_spec (rows : List MatchAllianceTeamRow)
    (valid : List String) (r : MatchAllianceTeamRow) :
    r ∈ filterValidTeams rows valid ↔ (r ∈ rows ∧ r.team_key ∈ valid) := by
  simp [filterValidTeams, List.mem_filter, List.elem_iff]

/-- C10: after buffering a non-empty dataframe into a bucket of a fresh
accumulator and then clearing that bucket, `has_data` still returns true,
although every bucket holds an empty list and no validator updates are
pending: `clear_data` keeps the bucket key present with an empty list. -/
theorem clearData_keeps_bucket (n : Nat) (bucket : String) (df : List Row)
    (hdf : df.isEmpty = false) :
    (((BatchAccumulator.empty n).addData bucket df).clearData bucket).hasData
        = true ∧
    (∀ kv ∈ (((BatchAccumulator.empty n).addData bucket df).clearData
        bucket).data, kv.2 = []) ∧
    (((BatchAccumulator.empty n).addData bucket df).clearData bucket).etags
        = [] := by
  simp [BatchAccumulator.empty, BatchAccumulator.addData,
    BatchAccumulator.clearData, BatchAccumulator.hasData, hdf]

theorem clearData_keeps_bucket_witness :
    (((BatchAccumulator.empty 25).addData "matches"
        [[("key", some "2024casj_qm1")]]).clearData "matches").hasData = true ∧
    (∀ kv ∈ (((BatchAccumulator.empty 25).addData "matches"
        [[("key", some "2024casj_qm1")]]).clearData "matches").data,
      kv.2 = []) ∧
    (((BatchAccumulator.empty 25).addData "matches"
        [[("key", some "2024casj_qm1")]]).clearData "matches").etags = [] :=
  clearData_keeps_bucket 25 "matches" [[("key", some "2024casj_qm1")]]
    (by decide)

/- ---------------------------------------------------------------------
Claim theorems: reserved-range filters.
--------------------------------------------------------------------- -/

/-- Sample provider team outside the reserved range. -/
def team254sample : TeamRecord :=
  ⟨"frc254", some 254, none, none, none, none, none, none, none, none, none⟩

/-- Sample provider team inside the reserved range 9970..9999. -/
def team9994sample : TeamRecord :=
  ⟨"frc9994", some 9994, none, none, none, none, none, none, none, none, none⟩

/-- C8: no team whose number lies in the reserved range 9970..9999 survives
the normalizer: the teams fragment filters on the team_number column, the
event-teams fragment on the number extracted from the `frc<digits>` key;
in particular team frc9994 is filtered out of the teams fragment. -/
theorem reservedRange_spec :
    (∀ (input : List TeamRecord) (t : TeamRecord), t ∈ getTeamsFragment input →
      ∀ n : Int, t.team_number = some n → ¬(9970 ≤ n ∧ n ≤ 9999)) ∧
    (∀ (eventKey : String) (data : List String) (p : String × String),
      p ∈ getEventTeamsFragment eventKey data →
      ∀ n : Nat, extractFrcNumber p.2 = some n → ¬(9970 ≤ n ∧ n ≤ 9999)) ∧
    (getTeamsFragment [team254sample, team9994sample]).map TeamRecord.key
      = ["frc254"] := by
  refine ⟨?_, ?_, ?_⟩
  · intro input t ht n hn
    have h := (List.mem_filter.mp ht).2
    rw [keepTeamRow, hn] at h
    simp at h
    omega
  · intro eventKey data p hp n hn
    obtain ⟨tk, htk, rfl⟩ := List.mem_map.mp hp
    have h := (List.mem_filter.mp htk).2
    rw [keepEventTeamKey] at h
    simp only at hn
    rw [hn] at h
    simp at h
    omega
  · decide

theorem reservedRange_spec_witness :
    ¬(9970 ≤ (254 : Int) ∧ (254 : Int) ≤ 9999) :=
  reservedRange_spec.1 [team254sample] team254sample (by decide) 254 (by decide)

/- ---------------------------------------------------------------------
Claim theorems: conditional fetch retry.
--------------------------------------------------------------------- -/

/-- Environment whose first attempt observes a 404 response and whose later
attempts observe a 200 response. -/
def envAfter404 : Nat → NetResult := fun i =>
  if i = 0 then .response 404 "" none else .response 200 "ok" (some "W")

/-- C1 counterexample: a 4xx response does not propagate immediately to the
caller: after a 404 on its first attempt, the client retries and returns
the success of the second attempt. (`httpx.HTTPStatusError`, raised by
`raise_for_status` for every 4xx too, is a subclass of `httpx.HTTPError`,
the retried exception type.) -/
theorem fourxx_is_retried :
    envAfter404 0 = NetResult.response 404 "" none ∧
    tbaGet envAfter404 = .ok (some ("ok", some "W")) :=
  ⟨rfl, rfl⟩

/-- C1, amended: every attempt raising an `httpx.HTTPError` — a network
failure or any non-2xx/304 status response, 4xx and 5xx alike — is retried up
to the fixed total of 3 attempts with exponential backoff (doubling,
capped at 10 once past the minimum of 2); exhaustion re-raises the last
error; only non-HTTP errors propagate immediately without retry. -/
theorem retry_semantics :
    (∀ (env : Nat → NetResult) (v : Option (String × Option String)),
      tbaGetOnce (env 0) = .ok v → tbaGet env = .ok v) ∧
    (∀ (env : Nat → NetResult) (e : FetchError),
      tbaGetOnce (env 0) = .error e → e.isHTTPError = true →
      tbaGet env = tbaGetRetry env 1 1) ∧
    (∀ (env : Nat → NetResult) (e : FetchError),
      tbaGetOnce (env 0) = .error e → e.isHTTPError = false →
      tbaGet env = .error e) ∧
    (∀ (env : Nat → NetResult) (e0 e1 e2 : FetchError),
      tbaGetOnce (env 0) = .error e0 → e0.isHTTPError = true →
      tbaGetOnce (env 1) = .error e1 → e1.isHTTPError = true →
      tbaGetOnce (env 2) = .error e2 →
      tbaGet env = .error e2) ∧
    (∀ c : Nat, 400 ≤ c → c ≤ 599 →
      (FetchError.statusError c).isHTTPError = true) ∧
    FetchError.transportError.isHTTPError = true ∧
    FetchError.otherError.isHTTPError = false ∧
    (∀ n : Nat, 1 ≤ n →
      waitExponential (n + 1) = min 10 (2 * waitExponential n)) := by
  refine ⟨?_, ?_, ?_, ?_, ?_, rfl, rfl, ?_⟩
  · intro env v h
    simp [tbaGet, tbaGetRetry, h]
  · intro env e h hH
    simp [tbaGet, tbaGetRetry, h, hH]
  · intro env e h hH
    simp [tbaGet, tbaGetRetry, h, hH]
  · intro env e0 e1 e2 h0 hH0 h1 hH1 h2
    simp [tbaGet, tbaGetRetry, h0, hH0, h1, hH1, h2]
  · intro c _ _
    rfl
  · intro n hn
    have h2 : (2 : Nat) ≤ 2 ^ n := by
      calc (2 : Nat) = 2 ^ 1 := rfl
        _ ≤ 2 ^ n := Nat.pow_le_pow_right (by norm_num) hn
    have hs : (2 : Nat) ^ (n + 1) = 2 * 2 ^ n := by
      rw [pow_succ, Nat.mul_comm]
    simp only [waitExponential, hs]
    omega

/-- Environment where every attempt observes a 500 response. -/
def envAll500 : Nat → NetResult := fun _ => .response 500 "" none

theorem retry_semantics_witness :
    tbaGet envAll500 = .error (.statusError 500) :=
  retry_semantics.2.2.2.1 envAll500 (.statusError 500) (.statusError 500)
    (.statusError 500) rfl rfl rfl rfl rfl

/- ---------------------------------------------------------------------
Claim theorems: active window and scope resolution.
--------------------------------------------------------------------- -/

/-- C2: the event-active predicate holds iff the start date minus the
1-day-2-hour buffer is at most the current date in the event timezone
(UTC when unset), which is at most the end date plus the same buffer —
stated over seconds, 93600 being the buffer and 86400 a day. In
particular an event with null timezone, start 2024-03-01 and end
2024-03-03 is active at 2024-03-01T23:00Z. -/
theorem isEventActive_spec :
    (∀ (zinfo : String → ZoneRule) (ts : Int) (e : Event),
      isEventActive zinfo ts e = true ↔
        (86400 * e.start_date - 93600 ≤
            86400 * localDateAt (zoneOf zinfo e.timezone) ts ∧
          86400 * localDateAt (zoneOf zinfo e.timezone) ts ≤
            86400 * e.end_date + 93600)) ∧
    isEventActive (fun _ => fun _ => 0)
      (86400 * civilToDays 2024 3 1 + 23 * 3600)
      { key := "2024demo", year := 2024, timezone := none,
        start_date := civilToDays 2024 3 1,
        end_date := civilToDays 2024 3 3 } = true := by
  constructor
  · intro zinfo ts e
    have hb : Timedelta.ofDaysHours 1 2 = ⟨1, 7200⟩ := by decide
    simp only [isEventActive, hb, dateSubTd, dateAddTd, decide_eq_true_eq]
    generalize localDateAt (zoneOf zinfo e.timezone) ts = nd
    omega
  · decide

/-- C3: at a single evaluation instant, the key lists produced by scope
resolution for the LIVE and YEAR tiers are disjoint: no current-year event
key appears in both. -/
theorem liveYearDisjoint (zinfo : String → ZoneRule) (ts nowYear : Int)
    (events : List Event) (hkeys : (events.map Event.key).Nodup) (k : String)
    (hlive : k ∈ getEventKeys zinfo ts nowYear events .LIVE) :
    k ∉ getEventKeys zinfo ts nowYear events .YEAR := by
  intro hyear
  simp only [getEventKeys, List.mem_map, List.mem_filter] at hlive hyear
  obtain ⟨e1, ⟨hs1, ha1⟩, hk1⟩ := hlive
  obtain ⟨e2, ⟨hs2, ha2⟩, hk2⟩ := hyear
  have he1 : e1 ∈ events :=
    (List.mem_filter.mp
      ((List.perm_insertionSort _ _).mem_iff.mp hs1)).1
  have he2 : e2 ∈ events :=
    (List.mem_filter.mp
      ((List.perm_insertionSort _ _).mem_iff.mp hs2)).1
  have : e1 = e2 :=
    List.inj_on_of_nodup_map hkeys he1 he2 (hk1.trans hk2.symm)
  subst this
  rw [ha1] at ha2
  simp at ha2

/-- A sample event pair for the LIVE/YEAR disjointness witness: one event
in its active window at the evaluation instant, one long past. -/
def sampleEvents : List Event :=
  [{ key := "2024casj", year := 2024, timezone := none,
     start_date := civilToDays 2024 3 1, end_date := civilToDays 2024 3 3 },
   { key := "2024week0", year := 2024, timezone := none,
     start_date := civilToDays 2024 2 1, end_date := civilToDays 2024 2 3 }]

theorem liveYearDisjoint_witness :
    "2024casj" ∉ getEventKeys (fun _ => fun _ => 0)
      (86400 * civilToDays 2024 3 1 + 23 * 3600) 2024 sampleEvents .YEAR :=
  liveYearDisjoint (fun _ => fun _ => 0)
    (86400 * civilToDays 2024 3 1 + 23 * 3600) 2024 sampleEvents
    (by decide) "2024casj" (by decide)

/- ---------------------------------------------------------------------
Claim theorems: validator cache bulk lookup.
--------------------------------------------------------------------- -/

/-- In a store with distinct endpoint keys, the point lookup finds exactly
the stored pair. -/
theorem find?_eq_of_mem_nodup :
    ∀ (store : List (String × String)) (k v : String),
      (store.map Prod.fst).Nodup → (k, v) ∈ store →
      store.find? (fun kv => kv.1 == k) = some (k, v) := by
  intro store
  induction store with
  | nil => intro k v _ h; simp at h
  | cons hd tl ih =>
    intro k v hnd hmem
    rw [List.map_cons] at hnd
    obtain ⟨hhd, htl⟩ := List.nodup_cons.mp hnd
    rcases List.mem_cons.mp hmem with heq | htail
    · subst heq
      exact List.find?_cons_of_pos _ (by simp)
    · have hne : hd.1 ≠ k := fun h => hhd (List.mem_map.mpr ⟨(k, v), htail, h.symm⟩)
      rw [List.find?_cons_of_neg _ (by simp [hne])]
      exact ih k v htl htail

/-- C9: the validator cache offers, besides the single-key `get_etag`
lookup, a bulk lookup that turns one endpoint resource template into a
wildcard pattern (each `{...}` placeholder becomes `%`) and returns, in one
query, exactly the pairs of the store whose endpoint identifier matches,
each carrying the same token the single-key lookup returns. In particular
the matches template becomes the pattern `/event/%/matches`, which matches
the identifier `/event/2024casj/matches`. -/
theorem getEtagsBulk_spec :
    (∀ (store : List (String × String)) (template : String)
      (kv : String × String), (store.map Prod.fst).Nodup →
      kv ∈ getEtagsBulk store template →
      likeMatch (templatePattern template) kv.1.data = true ∧
        getEtag store kv.1 = some kv.2) ∧
    (∀ (store : List (String × String)) (template k v : String),
      (k, v) ∈ store → likeMatch (templatePattern template) k.data = true →
      (k, v) ∈ getEtagsBulk store template) ∧
    templatePattern "/event/{event_key}/matches" = "/event/%/matches".data ∧
    likeMatch (templatePattern "/event/{event_key}/matches")
      "/event/2024casj/matches".data = true := by
  refine ⟨?_, ?_, by decide, by decide⟩
  · intro store template kv hnd hmem
    obtain ⟨hin, hlike⟩ := List.mem_filter.mp hmem
    refine ⟨hlike, ?_⟩
    rw [getEtag, find?_eq_of_mem_nodup store kv.1 kv.2 hnd hin]
    rfl
  · intro store template k v hmem hlike
    exact List.mem_filter.mpr ⟨hmem, hlike⟩

theorem getEtagsBulk_spec_witness :
    ("/event/2024casj/matches", "etag1") ∈
      getEtagsBulk [("/event/2024casj/matches", "etag1"), ("/teams/0", "t0")]
        "/event/{event_key}/matches" :=
  getEtagsBulk_spec.2.1
    [("/event/2024casj/matches", "etag1"), ("/teams/0", "t0")]
    "/event/{event_key}/matches" "/event/2024casj/matches" "etag1"
    (by decide) (by decide)

/- ---------------------------------------------------------------------
Row-level lemmas for the upsert engine.
--------------------------------------------------------------------- -/

theorem getCol_setCol_self (row : Row) (c : String) (v : Value) :
    getCol (setCol row c v) c = v := by
  induction row with
  | nil => simp [setCol, getCol]
  | cons hd tl ih =>
    obtain ⟨d, w⟩ := hd
    by_cases h : d = c
    · subst h; simp [setCol, getCol]
    · simp [setCol, getCol, h, ih]

theorem getCol_setCol_ne (row : Row) (c x : String) (v : Value) (h : x ≠ c) :
    getCol (setCol row c v) x = getCol row x := by
  induction row with
  | nil => simp [setCol, getCol, Ne.symm h]
  | cons hd tl ih =>
    obtain ⟨d, w⟩ := hd
    by_cases hdc : d = c
    · subst hdc
      simp [setCol, getCol, Ne.symm h]
    · simp [setCol, getCol, hdc, ih]

theorem setCol_setCol (row : Row) (c : String) (v v' : Value) :
    setCol (setCol row c v) c v' = setCol row c v' := by
  induction row with
  | nil => simp [setCol]
  | cons hd tl ih =>
    obtain ⟨d, w⟩ := hd
    by_cases h : d = c
    · subst h; simp [setCol]
    · simp [setCol, h, ih]

theorem containsCol_setCol_self (row : Row) (c : String) (v : Value) :
    containsCol (setCol row c v) c = true := by
  induction row with
  | nil => simp [setCol, containsCol]
  | cons hd tl ih =>
    obtain ⟨d, w⟩ := hd
    by_cases h : d = c
    · subst h; simp [setCol, containsCol]
    · simp [setCol, containsCol, h, ih]

theorem containsCol_setCol (row : Row) (c e : String) (v : Value)
    (h : containsCol row e = true) :
    containsCol (setCol row c v) e = true := by
  induction row with
  | nil => simp [containsCol] at h
  | cons hd tl ih =>
    obtain ⟨d, w⟩ := hd
    rw [containsCol, Bool.or_eq_true] at h
    by_cases hdc : d = c
    · subst hdc
      rcases h with h | h
    <;> simp [setCol, containsCol, h]
    · rcases h with h | h
      · simp [setCol, containsCol, hdc, h]
      · simp [setCol, containsCol, hdc, ih h]

theorem setCol_comm (row : Row) (c d : String) (v w : Value) (hne : c ≠ d)
    (hc : containsCol row c = true) :
    setCol (setCol row d w) c v = setCol (setCol row c v) d w := by
  induction row with
  | nil => simp [containsCol] at hc
  | cons hd tl ih =>
    obtain ⟨e, u⟩ := hd
    rw [containsCol, Bool.or_eq_true] at hc
    by_cases hec : e = c
    · subst hec
      simp [setCol, hne, Ne.symm hne]
    · by_cases hed : e = d
      · subst hed
        simp only [setCol, if_pos rfl, if_neg hec]
        rcases hc with hc | hc
        · exact absurd (beq_iff_eq.mp hc) hec
        · simp [setCol, hec, containsCol_setCol _ _ _ _ hc]
      · rcases hc with hc | hc
        · exact absurd (beq_iff_eq.mp hc) hec
        · simp [setCol, hec, hed, ih hc]

theorem setCol_getCol_self (row : Row) (c : String)
    (hc : containsCol row c = true) :
    setCol row c (getCol row c) = row := by
  induction row with
  | nil => simp [containsCol] at hc
  | cons hd tl ih =>
    obtain ⟨d, w⟩ := hd
    rw [containsCol, Bool.or_eq_true] at hc
    by_cases hdc : d = c
    · subst hdc
      simp [setCol, getCol]
    · rcases hc with hc | hc
      · exact absurd (beq_iff_eq.mp hc) hdc
      · simp [setCol, getCol, hdc, ih hc]

theorem mergeRow_nil (dst src : Row) : mergeRow [] dst src = dst := rfl

theorem mergeRow_cons (c : String) (cs : List String) (dst src : Row) :
    mergeRow (c :: cs) dst src =
      mergeRow cs (setCol dst c (getCol src c)) src := rfl

theorem getCol_mergeRow (cs : List String) (dst src : Row) (x : String) :
    getCol (mergeRow cs dst src) x =
      if x ∈ cs then getCol src x else getCol dst x := by
  induction cs generalizing dst with
  | nil => simp [mergeRow_nil]
  | cons c cs ih =>
    rw [mergeRow_cons, ih]
    by_cases hx : x ∈ cs
    · simp [hx]
    · by_cases hxc : x = c
      · subst hxc
        simp [hx, getCol_setCol_self]
      · simp [hx, hxc, getCol_setCol_ne _ _ _ _ hxc]

theorem containsCol_mergeRow (cs : List String) (dst src : Row) (e : String)
    (h : containsCol dst e = true) :
    containsCol (mergeRow cs dst src) e = true := by
  induction cs generalizing dst with
  | nil => exact h
  | cons c cs ih =>
    rw [mergeRow_cons]
    exact ih _ (containsCol_setCol _ _ _ _ h)

theorem mergeRow_push (cs : List String) (dst src : Row) (x : String)
    (v : Value) (hx : x ∉ cs) (hc : containsCol dst x = true) :
    setCol (mergeRow cs dst src) x v = mergeRow cs (setCol dst x v) src := by
  induction cs generalizing dst with
  | nil => simp [mergeRow_nil]
  | cons c cs ih =>
    have hxc : x ≠ c := fun h => hx (h ▸ List.mem_cons_self c cs)
    have hxs : x ∉ cs := fun h => hx (List.mem_cons_of_mem c h)
    rw [mergeRow_cons, mergeRow_cons,
      ih _ hxs (containsCol_setCol _ _ _ _ hc),
      setCol_comm _ _ _ _ _ hxc hc]

theorem mergeRow_mergeRow (cs : List String) (dst r1 r2 : Row)
    (hnd : cs.Nodup) :
    mergeRow cs (mergeRow cs dst r1) r2 = mergeRow cs dst r2 := by
  induction cs generalizing dst with
  | nil => simp [mergeRow_nil]
  | cons c cs ih =>
    obtain ⟨hc, hnd'⟩ := List.nodup_cons.mp hnd
    rw [mergeRow_cons, mergeRow_cons, mergeRow_cons,
      mergeRow_push cs _ r1 c _ hc (containsCol_setCol_self _ _ _),
      setCol_setCol, ih _ hnd']

theorem mergeRow_self (cs : List String) (r : Row)
    (hwf : ∀ c ∈ cs, containsCol r c = true) : mergeRow cs r r = r := by
  induction cs with
  | nil => rfl
  | cons c cs ih =>
    rw [mergeRow_cons, setCol_getCol_self _ _ (hwf c (List.mem_cons_self c cs))]
    exact ih (fun d hd => hwf d (List.mem_cons_of_mem c hd))

theorem projKeys_mergeRow (ckeys cs : List String) (s r : Row)
    (h : ∀ k ∈ ckeys, k ∉ cs) :
    projKeys ckeys (mergeRow cs s r) = projKeys ckeys s := by
  unfold projKeys
  apply List.map_congr_left
  intro k hk
  rw [getCol_mergeRow, if_neg (h k hk)]

/- ---------------------------------------------------------------------
Fold-level lemmas for the upsert engine.
--------------------------------------------------------------------- -/

/-- The last row of a fragment row list whose conflict-key projection is
`p`, when one exists. -/
def lastOcc (K : List String) : List Row → List Value → Option Row
  | [], _ => none
  | r :: L, p =>
    match lastOcc K L p with
    | some ρ => some ρ
    | none => if projKeys K r = p then some r else none

theorem lastOcc_append_single (K : List String) (L : List Row) (r : Row)
    (p : List Value) :
    lastOcc K (L ++ [r]) p =
      if projKeys K r = p then some r else lastOcc K L p := by
  induction L with
  | nil =>
    simp only [List.nil_append, lastOcc]
  | cons x L ih =>
    rw [List.cons_append, lastOcc, ih, lastOcc]
    by_cases h : projKeys K r = p
    · simp only [if_pos h]
    · simp only [if_neg h]

theorem lastOcc_mem (K : List String) :
    ∀ (L : List Row) (p : List Value) (ρ : Row),
      lastOcc K L p = some ρ → ρ ∈ L ∧ projKeys K ρ = p := by
  intro L
  induction L with
  | nil => intro p ρ h; simp [lastOcc] at h
  | cons r L ih =>
    intro p ρ h
    rw [lastOcc] at h
    cases hL : lastOcc K L p with
    | some σ =>
      rw [hL] at h
      cases h
      obtain ⟨hm, hp⟩ := ih p ρ hL
      exact ⟨List.mem_cons_of_mem r hm, hp⟩
    | none =>
      rw [hL] at h
      by_cases hr : projKeys K r = p
      · rw [if_pos hr] at h
        cases h
        exact ⟨List.mem_cons_self r L, hr⟩
      · rw [if_neg hr] at h
        cases h

theorem lastOcc_isSome_of_mem (K : List String) :
    ∀ (L : List Row) (r : Row), r ∈ L →
      (lastOcc K L (projKeys K r)).isSome := by
  intro L
  induction L with
  | nil => intro r h; simp at h
  | cons x L ih =>
    intro r h
    rw [lastOcc]
    cases hL : lastOcc K L (projKeys K r) with
    | some σ => simp
    | none =>
      rcases List.mem_cons.mp h with heq | htail
      · subst heq
        simp
      · have := ih r htail
        rw [hL] at this
        simp at this

/-- When some stored row conflicts, `uStep` maps the merge over the state. -/
theorem uStep_match_pos (K cs : List String) (st : List Row) (r : Row)
    (h : ∃ s ∈ st, projKeys K s = projKeys K r) :
    uStep K cs st r = st.map (fun s =>
      if projKeys K s = projKeys K r then mergeRow cs s r else s) := by
  unfold uStep
  rw [if_pos]
  obtain ⟨s, hs, hp⟩ := h
  exact List.any_eq_true.mpr ⟨s, hs, by simpa using hp⟩

/-- When no stored row conflicts, `uStep` appends the incoming row. -/
theorem uStep_match_neg (K cs : List String) (st : List Row) (r : Row)
    (h : ¬ ∃ s ∈ st, projKeys K s = projKeys K r) :
    uStep K cs st r = st ++ [r] := by
  unfold uStep
  rw [if_neg]
  intro hany
  obtain ⟨s, hs, hp⟩ := List.any_eq_true.mp hany
  exact h ⟨s, hs, by simpa using hp⟩

/-- A conflict-key projection present in the state stays present after a
step. -/
theorem uStep_exists_proj (K cs : List String) (st : List Row) (r : Row)
    (hKcs : ∀ k ∈ K, k ∉ cs) (p : List Value)
    (h : ∃ s ∈ st, projKeys K s = p) :
    ∃ s ∈ uStep K cs st r, projKeys K s = p := by
  obtain ⟨s, hs, hp⟩ := h
  by_cases hm : ∃ s ∈ st, projKeys K s = projKeys K r
  · rw [uStep_match_pos K cs st r hm]
    refine ⟨_, List.mem_map_of_mem _ hs, ?_⟩
    by_cases hsr : projKeys K s = projKeys K r
    · rw [if_pos hsr, projKeys_mergeRow K cs s r hKcs, hp]
    · rw [if_neg hsr, hp]
  · rw [uStep_match_neg K cs st r hm]
    exact ⟨s, List.mem_append_left _ hs, hp⟩

/-- After a step, the projection of the stepped row is present. -/
theorem uStep_self_proj (K cs : List String) (st : List Row) (r : Row)
    (hKcs : ∀ k ∈ K, k ∉ cs) :
    ∃ s ∈ uStep K cs st r, projKeys K s = projKeys K r := by
  by_cases hm : ∃ s ∈ st, projKeys K s = projKeys K r
  · rw [uStep_match_pos K cs st r hm]
    obtain ⟨s, hs, hp⟩ := hm
    refine ⟨_, List.mem_map_of_mem _ hs, ?_⟩
    rw [if_pos hp, projKeys_mergeRow K cs s r hKcs, hp]
  · rw [uStep_match_neg K cs st r hm]
    exact ⟨r, List.mem_append_right _ (List.mem_singleton_self r), rfl⟩

/-- A projection present in the state stays present along the fold. -/
theorem foldl_exists_proj (K cs : List String) (hKcs : ∀ k ∈ K, k ∉ cs) :
    ∀ (L : List Row) (st : List Row) (p : List Value),
      (∃ s ∈ st, projKeys K s = p) →
      ∃ s ∈ L.foldl (uStep K cs) st, projKeys K s = p := by
  intro L
  induction L with
  | nil => intro st p h; exact h
  | cons r L ih =>
    intro st p h
    rw [List.foldl_cons]
    exact ih _ p (uStep_exists_proj K cs st r hKcs p h)

/-- After folding the fragment rows, every fragment row has a conflicting
row in the state. -/
theorem foldl_matcher_all (K cs : List String) (hKcs : ∀ k ∈ K, k ∉ cs) :
    ∀ (L : List Row) (st : List Row) (r : Row), r ∈ L →
      ∃ s ∈ L.foldl (uStep K cs) st, projKeys K s = projKeys K r := by
  intro L
  induction L with
  | nil => intro st r h; simp at h
  | cons x L ih =>
    intro st r h
    rw [List.foldl_cons]
    rcases List.mem_cons.mp h with heq | htail
    · subst heq
      exact foldl_exists_proj K cs hKcs L _ _
        (uStep_self_proj K cs st r hKcs)
    · exact ih _ r htail

/-- A stored row whose projection differs from every fragment row is kept
verbatim by the fold. -/
theorem foldl_untouched (K cs : List String) :
    ∀ (L : List Row) (st : List Row) (p : List Value),
      (∀ x ∈ L, projKeys K x ≠ p) →
      ∀ s ∈ st, projKeys K s = p → s ∈ L.foldl (uStep K cs) st := by
  intro L
  induction L with
  | nil => intro st p _ s hs _; exact hs
  | cons r L ih =>
    intro st p hL s hs hp
    rw [List.foldl_cons]
    have hrp : projKeys K r ≠ p := hL r (List.mem_cons_self r L)
    have hnext : s ∈ uStep K cs st r := by
      by_cases hm : ∃ s ∈ st, projKeys K s = projKeys K r
      · rw [uStep_match_pos K cs st r hm]
        have : (if projKeys K s = projKeys K r then mergeRow cs s r else s)
            = s := by
          rw [if_neg]
          intro hsr
          exact hrp (hsr ▸ hp)
        rw [← this]
        exact List.mem_map_of_mem _ hs
      · rw [uStep_match_neg K cs st r hm]
        exact List.mem_append_left _ hs
    exact ih _ p (fun x hx => hL x (List.mem_cons_of_mem r hx)) s hnext hp

/-- After one pass of the fold, every state row is a fixed point of merging
with the last fragment row of its conflict key. -/
theorem foldl_fixed (K cs : List String) (hKcs : ∀ k ∈ K, k ∉ cs)
    (hnd : cs.Nodup) :
    ∀ (L : List Row), (∀ r ∈ L, ∀ c ∈ cs, containsCol r c = true) →
      ∀ (st : List Row), ∀ s ∈ L.foldl (uStep K cs) st,
        ∀ ρ, lastOcc K L (projKeys K s) = some ρ → mergeRow cs s ρ = s := by
  intro L
  induction L using List.reverseRecOn with
  | nil =>
    intro _ st s _ ρ hρ
    simp [lastOcc] at hρ
  | append_singleton L r ih =>
    intro hwf st s hs ρ hρ
    rw [List.foldl_append, List.foldl_cons, List.foldl_nil] at hs
    rw [lastOcc_append_single] at hρ
    have hwf' : ∀ x ∈ L, ∀ c ∈ cs, containsCol x c = true :=
      fun x hx => hwf x (List.mem_append_left _ hx)
    by_cases hm : ∃ t ∈ L.foldl (uStep K cs) st,
        projKeys K t = projKeys K r
    · rw [uStep_match_pos K cs _ r hm] at hs
      obtain ⟨s₀, hs₀, hgs⟩ := List.mem_map.mp hs
      by_cases hsr : projKeys K s₀ = projKeys K r
      · rw [if_pos hsr] at hgs
        subst hgs
        have hps : projKeys K (mergeRow cs s₀ r) = projKeys K r := by
          rw [projKeys_mergeRow K cs s₀ r hKcs, hsr]
        rw [hps, if_pos rfl] at hρ
        cases hρ
        exact mergeRow_mergeRow cs s₀ r r hnd
      · rw [if_neg hsr] at hgs
        subst hgs
        rw [if_neg (fun h => hsr h.symm)] at hρ
        exact ih hwf' st s₀ hs₀ ρ hρ
    · rw [uStep_match_neg K cs _ r hm] at hs
      rcases List.mem_append.mp hs with hsL | hsr
      · have hne : projKeys K r ≠ projKeys K s :=
          fun h => hm ⟨s, hsL, h.symm⟩
        rw [if_neg hne] at hρ
        exact ih hwf' st s hsL ρ hρ
      · have hsr' : s = r := by simpa using hsr
        subst hsr'
        rw [if_pos rfl] at hρ
        cases hρ
        exact mergeRow_self cs s
          (hwf s (List.mem_append_right _ (List.mem_singleton_self s)))

/-- The pointwise relation carried by the second-pass identity lemma:
`s'` is the first-pass evolution of `s`, still to be struck by the last
fragment row of its key when one remains. -/
def SPRel (K cs : List String) (L : List Row) (s s' : Row) : Prop :=
  projKeys K s' = projKeys K s ∧
    match lastOcc K L (projKeys K s) with
    | none => s' = s
    | some ρ => mergeRow cs s' ρ = s

/-- Second-pass identity: folding the fragment rows over a state related
to `st` by `SPRel` lands exactly on `st`. -/
theorem foldl_return (K cs : List String) (hKcs : ∀ k ∈ K, k ∉ cs)
    (hnd : cs.Nodup) :
    ∀ (L : List Row) (st st' : List Row),
      List.Forall₂ (SPRel K cs L) st st' →
      (∀ r ∈ L, ∃ s' ∈ st', projKeys K s' = projKeys K r) →
      L.foldl (uStep K cs) st' = st := by
  intro L
  induction L with
  | nil =>
    intro st st' hF hM
    clear hM
    rw [List.foldl_nil]
    induction hF with
    | nil => rfl
    | cons hab _ ihF =>
      obtain ⟨-, hb⟩ := hab
      simp only [lastOcc] at hb
      rw [hb, ihF]
  | cons r L ih =>
    intro st st' hF hM
    rw [List.foldl_cons,
      uStep_match_pos K cs st' r (hM r (List.mem_cons_self r L))]
    apply ih st _ ?_ ?_
    · rw [List.forall₂_map_right_iff]
      refine hF.imp ?_
      intro a b hab
      obtain ⟨hproj, hrest⟩ := hab
      by_cases hbr : projKeys K b = projKeys K r
      · rw [if_pos hbr]
        refine ⟨by rw [projKeys_mergeRow K cs b r hKcs, hproj], ?_⟩
        cases hL : lastOcc K L (projKeys K a) with
        | some ρ =>
          simp only [SPRel, lastOcc, hL] at hrest
          simp only [hL]
          rw [mergeRow_mergeRow cs b r ρ hnd]
          exact hrest
        | none =>
          simp only [SPRel, lastOcc, hL] at hrest
          simp only [hL]
          have hpr : projKeys K r = projKeys K a := hbr.symm.trans hproj
          rw [if_pos hpr] at hrest
          simp only at hrest
          exact hrest
      · rw [if_neg hbr]
        refine ⟨hproj, ?_⟩
        cases hL : lastOcc K L (projKeys K a) with
        | some ρ =>
          simp only [SPRel, lastOcc, hL] at hrest
          simp only [hL]
          exact hrest
        | none =>
          simp only [SPRel, lastOcc, hL] at hrest
          simp only [hL]
          have hpr : projKeys K r ≠ projKeys K a :=
            fun h => hbr (hproj.trans h.symm)
          rw [if_neg hpr] at hrest
          simp only at hrest
          exact hrest
    · intro r' hr'
      obtain ⟨s', hs', hp⟩ := hM r' (List.mem_cons_of_mem r hr')
      refine ⟨_, List.mem_map_of_mem _ hs', ?_⟩
      by_cases hbr : projKeys K s' = projKeys K r
      · rw [if_pos hbr, projKeys_mergeRow K cs s' r hKcs, hp]
      · rw [if_neg hbr, hp]

/-- With no update columns, the merge step degenerates to do-nothing, so
the branch taken by the code agrees with the uniform step. -/
theorem applyConflictRow_eq_uStep (K cs : List String) (st : List Row)
    (r : Row) : applyConflictRow K cs st r = uStep K cs st r := by
  unfold applyConflictRow
  by_cases h : cs.isEmpty
  · rw [if_pos h]
    have hcs : cs = [] := List.isEmpty_iff.mp h
    subst hcs
    unfold uStep
    by_cases hm : st.any (fun s => decide (projKeys K s = projKeys K r))
    · rw [if_pos hm, if_pos hm]
      simp [mergeRow_nil]
    · rw [if_neg hm, if_neg hm]
  · rw [if_neg h]

/-- With no update columns the step is the do-nothing branch. -/
theorem applyConflictRow_nil (K : List String) (st : List Row) (r : Row) :
    applyConflictRow K [] st r =
      if st.any (fun s => decide (projKeys K s = projKeys K r)) then st
      else st ++ [r] := by
  simp [applyConflictRow]

/-- The do-nothing fold never alters the stored rows: it only appends. -/
theorem foldl_do_nothing (K : List String) :
    ∀ (L : List Row) (st : List Row),
      ∃ tail, L.foldl (applyConflictRow K []) st = st ++ tail := by
  intro L
  induction L with
  | nil => intro st; exact ⟨[], by simp⟩
  | cons r L ih =>
    intro st
    rw [List.foldl_cons, applyConflictRow_nil]
    by_cases hm : st.any (fun s => decide (projKeys K s = projKeys K r))
    · rw [if_pos hm]
      exact ih st
    · rw [if_neg hm]
      obtain ⟨t, ht⟩ := ih (st ++ [r])
      exact ⟨[r] ++ t, by rw [ht, List.append_assoc]⟩

/-- The update columns are disjoint from the conflict keys. -/
theorem updateColsOf_disjoint (columns K : List String) :
    ∀ k ∈ K, k ∉ updateColsOf columns K := by
  intro k hk hkc
  have h := (List.mem_filter.mp hkc).2
  simp at h
  exact h hk

/-- C4: on upsert of a non-empty fragment, (1) a stored row that conflicts
with a fragment row on the conflict keys survives with every non-key
fragment column overwritten by the incoming values and every other column
unchanged; (2) when the fragment has no columns outside the conflict keys,
the stored rows are left exactly as they were (conflicts are ignored, not
updated); (3) when no conflict key is supplied the declared primary-key
columns of the table are used. -/
theorem upsert_semantics :
    (∀ (pk : List String) (ck : Option (List String)) (frag : Fragment)
      (st : List Row) (s r : Row),
      (frag.rows.map (projKeys (conflictKeysOf ck pk))).Nodup →
      s ∈ st → r ∈ frag.rows →
      projKeys (conflictKeysOf ck pk) s = projKeys (conflictKeysOf ck pk) r →
      updateColsOf frag.columns (conflictKeysOf ck pk) ≠ [] →
      ∃ s' ∈ upsert pk ck frag st,
        (∀ c ∈ updateColsOf frag.columns (conflictKeysOf ck pk),
          getCol s' c = getCol r c) ∧
        (∀ c, c ∉ updateColsOf frag.columns (conflictKeysOf ck pk) →
          getCol s' c = getCol s c)) ∧
    (∀ (pk : List String) (ck : Option (List String)) (frag : Fragment)
      (st : List Row),
      updateColsOf frag.columns (conflictKeysOf ck pk) = [] →
      ∃ tail, upsert pk ck frag st = st ++ tail) ∧
    (∀ (pk : List String) (frag : Fragment) (st : List Row),
      upsert pk none frag st = upsert pk (some pk) frag st) := by
  refine ⟨?_, ?_, fun pk frag st => rfl⟩
  · intro pk ck frag st s r hnodup hs hr hproj hupd
    have hKcs := updateColsOf_disjoint frag.columns (conflictKeysOf ck pk)
    obtain ⟨L₁, L₂, hLL⟩ := List.append_of_mem hr
    rw [hLL, List.map_append, List.map_cons] at hnodup
    obtain ⟨hnd1, hnd2, hdisj⟩ := List.nodup_append.mp hnodup
    have h₁ : ∀ x ∈ L₁,
        projKeys (conflictKeysOf ck pk) x ≠ projKeys (conflictKeysOf ck pk) r := by
      intro x hx heq
      exact hdisj (heq ▸ List.mem_map_of_mem _ hx)
        (List.mem_cons_self _ _)
    have h₂ : ∀ x ∈ L₂,
        projKeys (conflictKeysOf ck pk) x ≠ projKeys (conflictKeysOf ck pk) r := by
      intro x hx heq
      exact (List.nodup_cons.mp hnd2).1 (heq ▸ List.mem_map_of_mem _ hx)
    have hne : frag.rows.isEmpty = false :=
      List.isEmpty_eq_false_iff_exists_mem.mpr ⟨r, hr⟩
    rw [upsert, hne, if_neg (by simp)]
    have hstep :
        applyConflictRow (conflictKeysOf ck pk)
            (updateColsOf frag.columns (conflictKeysOf ck pk))
          = uStep (conflictKeysOf ck pk)
            (updateColsOf frag.columns (conflictKeysOf ck pk)) :=
      funext fun st => funext fun r => applyConflictRow_eq_uStep _ _ st r
    rw [hstep, hLL, List.foldl_append, List.foldl_cons]
    have hsF1 : s ∈ L₁.foldl
        (uStep (conflictKeysOf ck pk)
          (updateColsOf frag.columns (conflictKeysOf ck pk))) st := by
      refine foldl_untouched _ _ L₁ st (projKeys (conflictKeysOf ck pk) s)
        ?_ s hs rfl
      intro x hx hxp
      exact h₁ x hx (hxp.trans hproj)
    rw [uStep_match_pos _ _ _ r ⟨s, hsF1, hproj⟩]
    refine ⟨mergeRow (updateColsOf frag.columns (conflictKeysOf ck pk)) s r,
      ?_, ?_, ?_⟩
    · refine foldl_untouched _ _ L₂ _
        (projKeys (conflictKeysOf ck pk)
          (mergeRow (updateColsOf frag.columns (conflictKeysOf ck pk)) s r))
        ?_ _ ?_ rfl
      · intro x hx hxp
        refine h₂ x hx ?_
        rw [hxp, projKeys_mergeRow _ _ s r hKcs, hproj]
      · exact List.mem_map.mpr ⟨s, hsF1, by rw [if_pos hproj]⟩
    · intro c hc
      rw [getCol_mergeRow, if_pos hc]
    · intro c hc
      rw [getCol_mergeRow, if_neg hc]
  · intro pk ck frag st hupd
    by_cases hne : frag.rows.isEmpty
    · exact ⟨[], by rw [upsert, if_pos hne, List.append_nil]⟩
    · rw [upsert, if_neg hne, hupd]
      exact foldl_do_nothing (conflictKeysOf ck pk) frag.rows st

/-- Sample fragment for the upsert witnesses. -/
def fragSample : Fragment :=
  ⟨["key", "name"],
   [[("key", some "frc254"), ("name", some "The Cheesy Poofs")],
    [("key", some "frc1678"), ("name", some "Citrus Circuits")]]⟩

/-- Sample stored state for the upsert witnesses. -/
def stSample : List Row :=
  [[("key", some "frc254"), ("name", some "stale")]]

theorem upsert_semantics_witness :
    ∃ s' ∈ upsert ["key"] none fragSample stSample,
      (∀ c ∈ updateColsOf fragSample.columns (conflictKeysOf none ["key"]),
        getCol s' c =
          getCol [("key", some "frc254"), ("name", some "The Cheesy Poofs")] c) ∧
      (∀ c, c ∉ updateColsOf fragSample.columns (conflictKeysOf none ["key"]) →
        getCol s' c =
          getCol [("key", some "frc254"), ("name", some "stale")] c) :=
  upsert_semantics.1 ["key"] none fragSample stSample
    [("key", some "frc254"), ("name", some "stale")]
    [("key", some "frc254"), ("name", some "The Cheesy Poofs")]
    (by decide) (by decide) (by decide) (by decide) (by decide)

/-- C5: upsert is idempotent: running the same fragment through `upsert`
twice leaves exactly the state a single run produces, for every conflict
key choice; the fragment is well-formed as a dataframe is (distinct column
names, every row carrying every declared column). -/
theorem upsert_idempotent (pk : List String) (ck : Option (List String))
    (frag : Fragment) (st : List Row)
    (hcols : frag.columns.Nodup)
    (hrect : ∀ r ∈ frag.rows, ∀ c ∈ frag.columns, containsCol r c = true) :
    upsert pk ck frag (upsert pk ck frag st) = upsert pk ck frag st := by
  by_cases hne : frag.rows.isEmpty
  · rw [upsert, if_pos hne]
  · have hKcs := updateColsOf_disjoint frag.columns (conflictKeysOf ck pk)
    have hnd : (updateColsOf frag.columns (conflictKeysOf ck pk)).Nodup :=
      hcols.filter _
    have hwf : ∀ r ∈ frag.rows,
        ∀ c ∈ updateColsOf frag.columns (conflictKeysOf ck pk),
        containsCol r c = true :=
      fun r hr c hc => hrect r hr c (List.mem_of_mem_filter hc)
    have hstep :
        applyConflictRow (conflictKeysOf ck pk)
            (updateColsOf frag.columns (conflictKeysOf ck pk))
          = uStep (conflictKeysOf ck pk)
            (updateColsOf frag.columns (conflictKeysOf ck pk)) :=
      funext fun st => funext fun r => applyConflictRow_eq_uStep _ _ st r
    rw [upsert, upsert, if_neg hne, if_neg hne, hstep]
    refine foldl_return _ _ hKcs hnd frag.rows _ _ ?_ ?_
    · rw [List.forall₂_same]
      intro s hsmem
      refine ⟨rfl, ?_⟩
      cases hL : lastOcc (conflictKeysOf ck pk) frag.rows
          (projKeys (conflictKeysOf ck pk) s) with
      | none => simp only [hL]
      | some ρ =>
        simp only [hL]
        exact foldl_fixed _ _ hKcs hnd frag.rows hwf st s hsmem ρ hL
    · intro r hr
      exact foldl_matcher_all _ _ hKcs frag.rows st r hr

theorem upsert_idempotent_witness :
    upsert ["key"] none fragSample (upsert ["key"] none fragSample stSample)
      = upsert ["key"] none fragSample stSample :=
  upsert_idempotent ["key"] none fragSample stSample (by decide) (by decide)

end StealthyStats
